import Mathlib

/-!
# Verification of the `timefn` period algebra

Shallow embedding of the Go library `bounoable/timefn` (files `timefn.go`,
`period.go`, `internal/slice/slice.go`).

Modelling conventions:

* A Go `time.Time` is modelled as the number of nanoseconds since Go's zero
  time (January 1, year 1, 00:00:00 UTC), as an unbounded `Int`.  All tests of
  the repository use `time.UTC`, and the period algebra only uses comparisons,
  `Add`, `IsZero`, `Year`, `StartOfDay` and `AddDate(0, 0, 1)`; in UTC the two
  calendar operations are pure arithmetic on this representation
  (`StartOfDay t` floors `t` to a multiple of a day, and adding one calendar
  day to a midnight instant adds exactly 86400e9 nanoseconds, since UTC has
  no daylight-saving transitions).  `t.IsZero()` holds exactly at `t = 0`.
* A Go `time.Duration` (an `int64` of nanoseconds) is modelled as `Int`.
* Go slices of periods and dates are modelled as Lean lists.  The `nil`
  versus empty-slice distinction of Go collapses in this model; the only
  operation of the library that is sensitive to it (`slice.Map`) preserves
  it in Go, so this collapse does not change any list content.
-/

/-- Nanoseconds per calendar day (86400 seconds).  Throughout the file an
instant (`time.Time`) is an `Int` of nanoseconds since Go's zero time
(0001-01-01 00:00:00 UTC) and a duration (`time.Duration`) is an `Int` of
nanoseconds. -/
def nsPerDay : Int := 86400000000000

/-- `timefn.SameOrBefore`: `t.Equal(r) || t.Before(r)`. -/
def SameOrBefore (t r : Int) : Bool :=
  decide (t = r) || decide (t < r)

/-- `timefn.SameOrAfter`: `t.Equal(l) || t.After(l)`. -/
def SameOrAfter (t l : Int) : Bool :=
  decide (t = l) || decide (l < t)

/-- `timefn.BetweenInclusive`: `SameOrBefore(t, r) && SameOrAfter(t, l)`. -/
def BetweenInclusive (t l r : Int) : Bool :=
  SameOrBefore t r && SameOrAfter t l

/-- `timefn.StartOfDay` in UTC: the instant floored to a multiple of a day.
(`time.Date(y, m, d, 0, 0, 0, 0, UTC)` for the calendar day containing `t`.) -/
def startOfDay (t : Int) : Int :=
  nsPerDay * (t / nsPerDay)

/-- Proleptic-Gregorian civil-date to day-count conversion (days since
0001-01-01).  This is the standard era-based algorithm, matching Go's
`time.Date` for UTC. -/
def daysFromCivil (y m d : Int) : Int :=
  let y' := y - (if m ≤ 2 then 1 else 0)
  let era := y' / 400
  let yoe := y' - era * 400
  let mp := (m + 9) % 12
  let doy := (153 * mp + 2) / 5 + d - 1
  let doe := yoe * 365 + yoe / 4 - yoe / 100 + doy
  era * 146097 + doe - 306

/-- The civil year of a day count (days since 0001-01-01), proleptic
Gregorian; matches Go's `Time.Year` for UTC instants. -/
def yearOfDays (days : Int) : Int :=
  let z := days + 306
  let era := z / 146097
  let doe := z - era * 146097
  let yoe := (doe - doe / 1460 + doe / 36524 - doe / 146096) / 365
  let y := yoe + era * 400
  let doy := doe - (365 * yoe + yoe / 4 - yoe / 100)
  let mp := (5 * doy + 2) / 153
  let m := if mp < 10 then mp + 3 else mp - 9
  if m ≤ 2 then y + 1 else y

/-- Go's `t.Year()` in UTC. -/
def timeYear (t : Int) : Int :=
  yearOfDays (t / nsPerDay)

/-- The UTC instant `time.Date(y, m, d, 0, 0, 0, 0, time.UTC)`. -/
def dateUTC (y m d : Int) : Int :=
  nsPerDay * daysFromCivil y m d

/-!
## `absoluteStep`

Go source:
```
func absoluteStep(step time.Duration) time.Duration {
    return time.Duration(math.Abs(float64(step)))
}
```
The `int64 → float64` conversion rounds to the nearest representable
`float64` (ties to even); `math.Abs` is exact; the conversion back to
`int64` is exact for in-range values and implementation-defined on overflow
(`0x8000000000000000`, i.e. `math.MinInt64`, on amd64/arm64, the platforms
Go commonly targets).  `f64Exp` computes, by repeated halving, the binary
scale `e` such that `a / 2^e` fits in the 53-bit significand; the fuel `128`
strictly bounds the bit length of any `int64` magnitude (and far beyond).
-/

/-- Number of halvings needed to bring `x` below `2^53` (53-bit significand
of a `float64`).  Structural fuel recursion; fuel `128` is passed by the
caller and can never be exhausted for `int64`-range inputs. -/
def f64Exp : Nat → Nat → Nat
  | 0, _ => 0
  | fuel + 1, x => if x < 9007199254740992 then 0 else f64Exp fuel (x / 2) + 1

/-- Round a natural number to the nearest `float64`-representable value
(round to nearest, ties to even), returned exactly as a natural number. -/
def float64RoundNat (a : Nat) : Nat :=
  if a < 9007199254740992 then a
  else
    let e := f64Exp 128 a
    let p := 2 ^ e
    let q := a / p
    let r := a % p
    let half := p / 2
    if r < half then q * p
    else if half < r then (q + 1) * p
    else if q % 2 = 0 then q * p else (q + 1) * p

/-- `timefn.absoluteStep`: `time.Duration(math.Abs(float64(step)))`.
`float64(step)` rounds `step` to the nearest `float64` (rounding is
symmetric, so the rounded magnitude is `float64RoundNat step.natAbs`),
`math.Abs` flips the sign bit exactly, and the conversion back to
`time.Duration` (an `int64`) overflows to `math.MinInt64` when the rounded
magnitude reaches `2^63` (amd64/arm64 behaviour). -/
def absoluteStep (step : Int) : Int :=
  let a := float64RoundNat step.natAbs
  if a < 9223372036854775808 then (a : Int) else -9223372036854775808

/-!
## The `Period` type
-/

/-- `timefn.Period`: a pair of instants. -/
structure Period where
  Start : Int
  End : Int
deriving DecidableEq, Repr

/-- `Period.IsZero`: both `Start` and `End` are the zero instant. -/
def Period.IsZero (p : Period) : Bool :=
  decide (p.Start = 0) && decide (p.End = 0)

/-- The error cases of `Period.Validate`. -/
inductive PeriodError where
  | emptyStart
  | emptyEnd
  | endEqualsStart
  | endBeforeStart
deriving DecidableEq, Repr

/-- `Period.Validate`: start must be non-zero, end must be non-zero, and end
must be strictly after start; the first violated rule is reported. -/
def Period.Validate (p : Period) : Option PeriodError :=
  if p.Start = 0 then some .emptyStart
  else if p.End = 0 then some .emptyEnd
  else if p.End = p.Start then some .endEqualsStart
  else if p.End < p.Start then some .endBeforeStart
  else none

/-- `timefn.maxTime`: the later of two instants. -/
def maxTime (a b : Int) : Int :=
  if b < a then a else b

/-- `Period.OverlapsWithStep`: the two periods overlap by at least `step`.
The step is normalized via `absoluteStep`, both ends are shrunk by the step,
and four inclusive containment tests are combined. -/
def Period.OverlapsWithStep (p : Period) (step : Int) (p2 : Period) : Bool :=
  if p.IsZero || p2.IsZero then false
  else
    let step := absoluteStep step
    let pEnd := p.End - step
    let p2End := p2.End - step
    BetweenInclusive p.Start p2.Start p2End ||
      BetweenInclusive pEnd p2.Start p2End ||
      BetweenInclusive p2.Start p.Start pEnd ||
      BetweenInclusive p2End p.Start pEnd

/-- `Period.OverlapsWith` = `OverlapsWithStep` with a 1ns step. -/
def Period.OverlapsWith (p p2 : Period) : Bool :=
  p.OverlapsWithStep 1 p2

/-- `Period.YearsStep`: the calendar years touched by the period, using the
step-shrunk end; the two bounding years are swapped if out of order, and the
contiguous ascending range between them is returned. -/
def Period.YearsStep (p : Period) (step : Int) : List Int :=
  let step := absoluteStep step
  let min0 := timeYear p.Start
  let max0 := timeYear (p.End - step)
  let min := if min0 > max0 then max0 else min0
  let max := if min0 > max0 then min0 else max0
  if min = max then [min]
  else (List.range (max - min + 1).toNat).map fun (i : Nat) => min + (i : Int)

/-- `Period.Years` = `YearsStep` with a 1ns step. -/
def Period.Years (p : Period) : List Int :=
  p.YearsStep 1

/-- The date loop of `Period.DatesStep`: emit the current day's start, step
to the start of the next calendar day, stop once that exceeds the shrunk
end.  Go's loop is unbounded; here a fuel argument drives the structural
recursion, and `datesLoopF_fuel_irrelevant` below shows the result does not
depend on the fuel once the fuel exceeds the nanosecond distance to the end,
which is how `DatesStep` instantiates it. -/
def datesLoopF : Nat → Int → Int → List Int
  | 0, _, current => [current]
  | fuel + 1, endT, current =>
    let next := startOfDay (current + nsPerDay)
    if endT < next then [current]
    else current :: datesLoopF fuel endT next

/-- `Period.DatesStep`: nil for an invalid period; otherwise every calendar
day start from the day of `Start` until the shrunk end is passed. -/
def Period.DatesStep (p : Period) (step : Int) : List Int :=
  match p.Validate with
  | some _ => []
  | none =>
    let step := absoluteStep step
    let endT := p.End - step
    let current := startOfDay p.Start
    datesLoopF ((endT - current).toNat + 1) endT current

/-- `Period.Dates` = `DatesStep` with a 1ns step. -/
def Period.Dates (p : Period) : List Int :=
  p.DatesStep 1

/-- The date walk of `Period.SliceDatesStep`: returns the dates accumulated
before the first hit (Go's `cutDates`) and the first date on which the
callback returned true, if any. -/
def sliceWalk (fn : Int → Nat → Bool) : List Int → Nat → List Int × Option Int
  | [], _ => ([], none)
  | d :: ds, i =>
    if fn d i then ([], some d)
    else
      let rest := sliceWalk fn ds (i + 1)
      (d :: rest.1, rest.2)

/-- `Period.SliceDatesStep`.  Mirrors the Go control flow: invalid periods
and an empty date list fail closed; the walk breaks at the first date
satisfying `fn`, setting `after` to `[date, p.End)` (the Go guard
`i < len(dates)` is always true inside the loop); if no date was
accumulated before the hit the function returns `(p, zero, false)`;
otherwise `before` spans the first to the last accumulated date and the
returned flag is `true`. -/
def Period.SliceDatesStep (p : Period) (step : Int) (fn : Int → Nat → Bool) :
    Period × Period × Bool :=
  match p.Validate with
  | some _ => (p, ⟨0, 0⟩, false)
  | none =>
    let dates := p.DatesStep step
    match dates with
    | [] => (p, ⟨0, 0⟩, false)
    | _ :: _ =>
      let walk := sliceWalk fn dates 0
      let after : Period := match walk.2 with
        | some d => ⟨d, p.End⟩
        | none => ⟨0, 0⟩
      match walk.1 with
      | [] => (p, ⟨0, 0⟩, false)
      | c :: cs => (⟨c, (c :: cs).getLast (by simp)⟩, after, true)

/-- `Period.SliceDates` = `SliceDatesStep` with a 1ns step. -/
def Period.SliceDates (p : Period) (fn : Int → Nat → Bool) :
    Period × Period × Bool :=
  p.SliceDatesStep 1 fn

/-!
## Cutting

`slices.SortFunc`/`sort.Slice` in Go sort with an unstable algorithm; they
guarantee only *some* order ascending in `Start`.  The model uses
`List.insertionSort`, one admissible outcome.  Every concrete result below
that involves cuts or periods with equal `Start` values has been checked to
be insensitive to the order of the tied elements (see the comments at the
counterexamples).
-/

/-- The comparison used to sort cut lists and merge inputs: ascending by
`Start` (Go compares with `Before`/`After` on `Start` only). -/
def startLE (a b : Period) : Prop :=
  a.Start ≤ b.Start

instance : DecidableRel startLE := fun a b =>
  inferInstanceAs (Decidable (a.Start ≤ b.Start))

instance : IsTotal Period startLE :=
  ⟨fun a b => Int.le_total a.Start b.Start⟩

instance : IsTrans Period startLE :=
  ⟨fun _ _ _ h1 h2 => le_trans h1 h2⟩

/-- `Period.cut` (the unexported single-cut helper).  A zero `Start`/`End`
on the cut is unbounded in that direction.  Returns the surviving fragments
and whether the cut touched the period. -/
def Period.cut (p c : Period) : List Period × Bool :=
  let cutStartZero := decide (c.Start = 0)
  let cutEndZero := decide (c.End = 0)
  if !cutStartZero && SameOrBefore c.Start p.Start && SameOrAfter c.End p.End then
    ([], true)
  else if !cutEndZero && SameOrAfter c.End p.End && SameOrBefore c.Start p.Start then
    ([], true)
  else if (!cutStartZero && decide (p.End < c.Start)) ||
      (!cutEndZero && decide (c.End < p.Start)) then
    ([p], false)
  else
    let beforeStart := !cutStartZero && decide (p.Start < c.Start)
    let afterEnd := !cutEndZero && decide (c.End < p.End)
    if beforeStart && afterEnd then
      ([⟨p.Start, c.Start⟩, ⟨c.End, p.End⟩], true)
    else if beforeStart then
      ([⟨p.Start, c.Start⟩], true)
    else if afterEnd then
      ([⟨c.End, p.End⟩], true)
    else
      ([p], false)

/-- The per-fragment dispatch in the loop body of `Period.Cut`: replace a
fragment by the cut results when the cut touched it, else keep it. -/
def Period.cutFrags (r c : Period) : List Period :=
  match r.cut c with
  | (cutted, true) => cutted
  | (_, false) => [r]

/-- `Period.Cut`: sort the cuts ascending by `Start`, then fold each cut
over the surviving fragments. -/
def Period.Cut (p : Period) (cuts : List Period) : List Period :=
  (List.insertionSort startLE cuts).foldl
    (fun remaining c => remaining.flatMap fun r => r.cutFrags c) [p]

/-- `slice.Map` from `internal/slice/slice.go`.  (Its nil-for-nil special
case is invisible for Lean lists: `map` of `[]` is `[]`.) -/
def sliceMap (s : List α) (fn : α → β) : List β :=
  s.map fn

/-- `Period.CutInclusive`: shift every non-zero `End` (receiver and cuts)
forward by 1ns, delegate to `Cut`, then shift every result's `End` back —
the restore pass running only when the receiver's `End` was non-zero. -/
def Period.CutInclusive (p : Period) (cuts : List Period) : List Period :=
  let periodEndZero := p.End = 0
  let p' : Period := if periodEndZero then p else ⟨p.Start, p.End + 1⟩
  let cuts' := sliceMap cuts fun c => if c.End = 0 then c else ⟨c.Start, c.End + 1⟩
  let result := p'.Cut cuts'
  if periodEndZero then result
  else sliceMap result fun c => ⟨c.Start, c.End - 1⟩

/-!
## Merging
-/

/-- The sweep of `Period.MergeStep` over the sorted tail.  Go keeps a
`merged` slice and mutates its last element in place; the model carries the
last element separately (`merged = done ++ [last]`), which is the same
list. -/
def mergeSweep (step : Int) (last : Period) : List Period → List Period
  | [] => [last]
  | q :: rest =>
    if last.OverlapsWithStep step q then
      mergeSweep step ⟨last.Start, maxTime last.End q.End⟩ rest
    else if SameOrBefore last.End q.Start then
      last :: mergeSweep step q rest
    else
      mergeSweep step last rest

/-- `Period.MergeStep`: prepend the receiver, sort ascending by `Start`,
then sweep left to right, extending the last accumulated period on overlap,
appending on a same-or-before gap, and silently dropping otherwise. -/
def Period.MergeStep (p : Period) (step : Int) (periods : List Period) : List Period :=
  match periods with
  | [] => [p]
  | _ :: _ =>
    match List.insertionSort startLE (p :: periods) with
    | [] => []
    | q :: rest => mergeSweep step q rest

/-- `Period.Merge` = `MergeStep` with step 0. -/
def Period.Merge (p : Period) (periods : List Period) : List Period :=
  p.MergeStep 0 periods

/-- A cut period that denotes a real (possibly unbounded) time span: a zero
bound means unbounded, and when both bounds are present the start must not
lie after the end.  Cuts violating this (an inverted `End < Start` pair)
are the inputs on which `Cut`'s ordering guarantee fails; see claim C8. -/
def wellFormedCut (c : Period) : Prop :=
  c.Start = 0 ∨ c.End = 0 ∨ c.Start ≤ c.End

instance (c : Period) : Decidable (wellFormedCut c) :=
  inferInstanceAs (Decidable (_ ∨ _ ∨ _))

/-!
## Basic lemmas and sanity checks
-/

@[simp] theorem sameOrBefore_eq_true {t r : Int} : SameOrBefore t r = true ↔ t ≤ r := by
  simp only [SameOrBefore, Bool.or_eq_true, decide_eq_true_eq]
  omega

@[simp] theorem sameOrAfter_eq_true {t l : Int} : SameOrAfter t l = true ↔ l ≤ t := by
  simp only [SameOrAfter, Bool.or_eq_true, decide_eq_true_eq]
  omega

@[simp] theorem betweenInclusive_eq_true {t l r : Int} :
    BetweenInclusive t l r = true ↔ l ≤ t ∧ t ≤ r := by
  simp only [BetweenInclusive, Bool.and_eq_true, sameOrBefore_eq_true, sameOrAfter_eq_true]
  omega

theorem startOfDay_le (t : Int) : startOfDay t ≤ t := by
  unfold startOfDay nsPerDay; omega

theorem lt_startOfDay_add (t : Int) : t - nsPerDay < startOfDay t := by
  unfold startOfDay nsPerDay; omega

-- Sanity: Go's zero time is 0001-01-01 UTC, year 1.
example : dateUTC 1 1 1 = 0 := by decide
example : timeYear 0 = 1 := by decide
example : dateUTC 2020 1 2 - dateUTC 2020 1 1 = nsPerDay := by decide
example : timeYear (dateUTC 2020 12 31) = 2020 := by decide
example : timeYear (-1) = 0 := by decide

example : absoluteStep 0 = 0 := by decide
example : absoluteStep (-5) = 5 := by decide
example : absoluteStep 1 = 1 := by decide

theorem validate_eq_none {p : Period} :
    p.Validate = none ↔ p.Start ≠ 0 ∧ p.End ≠ 0 ∧ p.Start < p.End := by
  unfold Period.Validate
  split <;> rename_i h1
  · simp; omega
  · split <;> rename_i h2
    · simp; omega
    · split <;> rename_i h3
      · simp; omega
      · split <;> rename_i h4
        · simp; omega
        · simp; omega

theorem datesLoopF_fuel_irrelevant :
    ∀ f g endT current, (endT - current).toNat < f → (endT - current).toNat < g →
      datesLoopF f endT current = datesLoopF g endT current := by
  intro f
  induction f with
  | zero => omega
  | succ f ih =>
    intro g endT current hf hg
    match g, hg with
    | g + 1, _ =>
      simp only [datesLoopF]
      split
      · rfl
      · rename_i hstop
        have hnext := lt_startOfDay_add (current + nsPerDay)
        have : nsPerDay = 86400000000000 := rfl
        rw [ih g endT (startOfDay (current + nsPerDay)) (by omega) (by omega)]

-- Sanity checks against the repository's tests and the spec's examples.
example :
    (Period.mk (dateUTC 2020 1 1) (dateUTC 2020 1 7)).Cut
      [⟨dateUTC 2020 1 3, dateUTC 2020 1 6⟩] =
    [⟨dateUTC 2020 1 1, dateUTC 2020 1 3⟩, ⟨dateUTC 2020 1 6, dateUTC 2020 1 7⟩] := by
  decide
example :
    (Period.mk (dateUTC 2020 1 1) (dateUTC 2020 1 5)).DatesStep 0 =
    [dateUTC 2020 1 1, dateUTC 2020 1 2, dateUTC 2020 1 3, dateUTC 2020 1 4,
      dateUTC 2020 1 5] := by
  decide
example :
    (Period.mk (dateUTC 2020 1 1) (dateUTC 2020 1 5)).DatesStep 1 =
    [dateUTC 2020 1 1, dateUTC 2020 1 2, dateUTC 2020 1 3, dateUTC 2020 1 4] := by
  decide
example :
    (Period.mk (dateUTC 2020 12 31) (dateUTC 2021 1 1)).YearsStep 0 = [2020, 2021] := by
  decide
example :
    (Period.mk (dateUTC 2020 12 31) (dateUTC 2021 1 1)).YearsStep 1 = [2020] := by
  decide

/-!
## Claim C4: the worked `Cut` examples
-/

/-- C4: `Cut` conforms to the spec's worked examples: `[Jan1, Jan7)` cut by
`[Jan3, Jan6)` yields `[[Jan1,Jan3), [Jan6,Jan7)]`; cutting by the
receiver's own bounds yields the empty list; cutting by a cut with zero
`Start` (unbounded) and `End = Jan4` yields `[[Jan4,Jan7)]`. -/
theorem C4_cut_worked_examples :
    (Period.mk (dateUTC 2020 1 1) (dateUTC 2020 1 7)).Cut
        [⟨dateUTC 2020 1 3, dateUTC 2020 1 6⟩] =
      [⟨dateUTC 2020 1 1, dateUTC 2020 1 3⟩, ⟨dateUTC 2020 1 6, dateUTC 2020 1 7⟩] ∧
    (Period.mk (dateUTC 2020 1 1) (dateUTC 2020 1 7)).Cut
        [⟨dateUTC 2020 1 1, dateUTC 2020 1 7⟩] = [] ∧
    (Period.mk (dateUTC 2020 1 1) (dateUTC 2020 1 7)).Cut [⟨0, dateUTC 2020 1 4⟩] =
      [⟨dateUTC 2020 1 4, dateUTC 2020 1 7⟩] := by
  refine ⟨by decide, by decide, by decide⟩

/-!
## Claim C7: the worked `CutInclusive` example
-/

/-- C7: `CutInclusive` on `[Jan1, EndOfJan7]` (with `EndOfJan7` = Jan8
00:00 minus 1ns) cut by `[Jan3, EndOfJan6]` yields
`[[Jan1, EndOfJan2], [Jan7, EndOfJan7]]`: each non-zero `End` is shifted
forward 1ns, the exclusive `Cut` runs, and each fragment's `End` is shifted
back 1ns. -/
theorem C7_cutInclusive_worked_example :
    (Period.mk (dateUTC 2020 1 1) (dateUTC 2020 1 8 - 1)).CutInclusive
        [⟨dateUTC 2020 1 3, dateUTC 2020 1 7 - 1⟩] =
      [⟨dateUTC 2020 1 1, dateUTC 2020 1 3 - 1⟩,
        ⟨dateUTC 2020 1 7, dateUTC 2020 1 8 - 1⟩] := by
  decide

/-!
## Claim C1: `SliceDatesStep` with a never-true predicate

The claim (and the doc comment of `SliceDatesStep` itself) says a predicate
that never returns true yields `(original, zero, false)`.  The code instead
tests `len(cutDates) == 0` to decide failure; when the predicate never
fires, *every* date is accumulated, so the function returns
`(⟨firstDate, lastDate⟩, zero, true)` — `found = true` although nothing was
found, and `before ≠ original`.
-/

/-- C1: evaluating the code at the failing input.  For the valid period
`[2020-01-01, 2020-01-03)` with a 1ns step and the constantly-false
predicate, `SliceDatesStep` returns `before = [Jan1 00:00, Jan2 00:00]`,
`after = zero` and `found = true` — not `(original, zero, false)` as the
claim and the function's own documentation state. -/
theorem C1_sliceDates_never_true_eval :
    (Period.mk (dateUTC 2020 1 1) (dateUTC 2020 1 3)).SliceDatesStep 1
        (fun _ _ => false) =
      (⟨dateUTC 2020 1 1, dateUTC 2020 1 2⟩, ⟨0, 0⟩, true) := by
  decide

/-!
## Claim C3: `SliceDatesStep` with a satisfied predicate

The claim says any satisfying date produces `found = true` with
`after = [d, p.End)`.  When the *first* date satisfies the predicate, no
date has been accumulated, `len(cutDates) == 0`, and the code returns
`(original, zero, false)` — contradicting the claim and the function's own
doc comment ("a boolean indicating if such a date was found").
-/

/-- C3: evaluating the code at the failing input.  For the valid one-day
period `[2020-01-01, 2020-01-02)` the date list is exactly `[Jan1]`, and a
constantly-true predicate is satisfied by it at index 0; yet
`SliceDatesStep` returns `(original, zero, false)`. -/
theorem C3_sliceDates_first_date_eval :
    (Period.mk (dateUTC 2020 1 1) (dateUTC 2020 1 2)).DatesStep 1 =
        [dateUTC 2020 1 1] ∧
      (Period.mk (dateUTC 2020 1 1) (dateUTC 2020 1 2)).SliceDatesStep 1
          (fun _ _ => true) =
        (⟨dateUTC 2020 1 1, dateUTC 2020 1 2⟩, ⟨0, 0⟩, false) := by
  refine ⟨by decide, by decide⟩

/-!
## Claim C2: decomposition on an invalid receiver

`DatesStep` validates and returns nil for an invalid receiver, but
`YearsStep` performs no validation at all: it always returns at least one
year (for the zero period it returns `[1]`, the year of Go's zero time).
-/

/-- C2 counterexample: the zero period is invalid, yet `YearsStep 0`
returns the non-empty list `[1]` instead of an empty sequence. -/
theorem C2_yearsStep_invalid_counterexample :
    (Period.mk 0 0).Validate = some .emptyStart ∧
      (Period.mk 0 0).YearsStep 0 = [1] := by
  refine ⟨by decide, by decide⟩

theorem yearsStep_ne_nil (p : Period) (step : Int) : p.YearsStep step ≠ [] := by
  unfold Period.YearsStep
  dsimp only
  by_cases hc : timeYear p.Start > timeYear (p.End - absoluteStep step)
  · rw [if_pos hc, if_pos hc]
    split
    · simp
    · simp only [ne_eq, List.map_eq_nil_iff, List.range_eq_nil]
      omega
  · rw [if_neg hc, if_neg hc]
    split
    · simp
    · simp only [ne_eq, List.map_eq_nil_iff, List.range_eq_nil]
      rename_i he
      omega

/-- C2 (amended): on an invalid receiver `DatesStep` returns nil, while
`YearsStep` — which does not validate — always returns a non-empty list of
years. -/
theorem C2_invalid_receiver_amended (p : Period) (step : Int)
    (h : p.Validate ≠ none) :
    p.DatesStep step = [] ∧ p.YearsStep step ≠ [] := by
  constructor
  · cases hv : p.Validate with
    | none => exact absurd hv h
    | some e => simp [Period.DatesStep, hv]
  · exact yearsStep_ne_nil p step

/-- C2 witness: the amended theorem applied to the zero period with step 7. -/
theorem C2_invalid_receiver_amended_witness :
    (Period.mk 0 0).Validate ≠ none ∧
      ((Period.mk 0 0).DatesStep 7 = [] ∧ (Period.mk 0 0).YearsStep 7 ≠ []) :=
  ⟨by decide, C2_invalid_receiver_amended ⟨0, 0⟩ 7 (by decide)⟩

/-!
## Claim C9: `absoluteStep`

`absoluteStep` routes the step through `float64` (`math.Abs(float64(step))`).
A `float64` has a 53-bit significand, so magnitudes above `2^53` are not all
representable and get rounded; the claim's "exact mathematical absolute
value ... for extreme values" therefore fails.  Below `2^53` the round-trip
is exact.
-/

/-- C9 counterexample: at `step = 2^53 + 1` ns (about 104.25 days) the
`float64` round-trip rounds to `2^53`, so `absoluteStep step ≠ |step|`. -/
theorem C9_absoluteStep_counterexample :
    absoluteStep 9007199254740993 = 9007199254740992 ∧
      absoluteStep 9007199254740993 ≠ |(9007199254740993 : Int)| := by
  refine ⟨by decide, by decide⟩

theorem float64RoundNat_eq_self {a : Nat} (h : a ≤ 9007199254740992) :
    float64RoundNat a = a := by
  unfold float64RoundNat
  split
  · rfl
  · rename_i h2
    have he : a = 9007199254740992 := by omega
    subst he
    decide

/-- C9 (amended): `absoluteStep step` equals the exact absolute value
`|step|` for every step whose magnitude is at most `2^53` nanoseconds
(every such magnitude is exactly representable in `float64`); beyond that
the result is the `float64` rounding of `|step|`. -/
theorem C9_absoluteStep_amended (step : Int)
    (h : |step| ≤ 9007199254740992) :
    absoluteStep step = |step| := by
  have hn : step.natAbs ≤ 9007199254740992 := by
    rw [Int.abs_eq_natAbs] at h
    exact_mod_cast h
  unfold absoluteStep
  rw [float64RoundNat_eq_self hn]
  rw [if_pos (by omega)]
  rw [Int.abs_eq_natAbs]

/-- C9 witness: the amended theorem applied at `step = -5`. -/
theorem C9_absoluteStep_amended_witness :
    |(-5 : Int)| ≤ 9007199254740992 ∧ absoluteStep (-5) = |(-5 : Int)| :=
  ⟨by decide, C9_absoluteStep_amended (-5) (by decide)⟩

/-!
## Claim C6: adjacency and the overlap step
-/

theorem absoluteStep_zero : absoluteStep 0 = 0 := by decide

theorem absoluteStep_one : absoluteStep 1 = 1 := by decide

theorem isZero_eq_false_of_valid {p : Period} (h : p.Validate = none) :
    p.IsZero = false := by
  rw [validate_eq_none] at h
  simp only [Period.IsZero, Bool.and_eq_false_iff, decide_eq_false_iff_not]
  exact Or.inl h.1

/-- C6: two valid periods sharing exactly the boundary instant
`p.End = q.Start` overlap under step 0 (adjacency counts) and do not
overlap under a 1ns step. -/
theorem C6_adjacent_overlap (p q : Period)
    (hp : p.Validate = none) (hq : q.Validate = none) (hadj : p.End = q.Start) :
    p.OverlapsWithStep 0 q = true ∧ p.OverlapsWithStep 1 q = false := by
  have hp' := validate_eq_none.mp hp
  have hq' := validate_eq_none.mp hq
  unfold Period.OverlapsWithStep
  rw [isZero_eq_false_of_valid hp, isZero_eq_false_of_valid hq]
  simp only [Bool.or_self, Bool.false_eq_true, if_false, absoluteStep_zero,
    absoluteStep_one]
  constructor
  · simp only [Bool.or_eq_true, betweenInclusive_eq_true]
    omega
  · simp only [Bool.or_eq_false_iff]
    refine ⟨⟨⟨?_, ?_⟩, ?_⟩, ?_⟩ <;>
      · rw [← Bool.not_eq_true, betweenInclusive_eq_true]
        omega

/-- C6 witness: the theorem applied to the adjacent valid periods
`[1ns, 5ns)` and `[5ns, 9ns)`. -/
theorem C6_adjacent_overlap_witness :
    (Period.mk 1 5).Validate = none ∧ (Period.mk 5 9).Validate = none ∧
      ((Period.mk 1 5).OverlapsWithStep 0 ⟨5, 9⟩ = true ∧
        (Period.mk 1 5).OverlapsWithStep 1 ⟨5, 9⟩ = false) :=
  ⟨by decide, by decide, C6_adjacent_overlap ⟨1, 5⟩ ⟨5, 9⟩ (by decide) (by decide) rfl⟩

/-!
## Helper lemmas for the cut algebra
-/

@[simp] theorem sameOrBefore_eq_false {t r : Int} : SameOrBefore t r = false ↔ r < t := by
  rw [← Bool.not_eq_true, sameOrBefore_eq_true]; omega

@[simp] theorem sameOrAfter_eq_false {t l : Int} : SameOrAfter t l = false ↔ t < l := by
  rw [← Bool.not_eq_true, sameOrAfter_eq_true]; omega

@[simp] theorem betweenInclusive_eq_false {t l r : Int} :
    BetweenInclusive t l r = false ↔ t < l ∨ r < t := by
  rw [← Bool.not_eq_true, betweenInclusive_eq_true]; omega

/-- A single-element cut list: sorting is trivial and the fold applies the
one cut to the one initial fragment. -/
theorem cut_singleton (p c : Period) : p.Cut [c] = p.cutFrags c := by
  simp [Period.Cut, List.insertionSort, List.orderedInsert]

/-- `cut` on a fragment lying strictly before a bounded cut start (and not
contained): the fragment is returned unchanged. -/
theorem cutFrags_before (p c : Period) (h1 : c.Start ≠ 0) (h2 : p.End < c.Start)
    (h3 : ¬c.Start ≤ p.Start) : p.cutFrags c = [p] := by
  unfold Period.cutFrags Period.cut
  have d1 : decide (c.Start = 0) = false := by simp [h1]
  have d2 : SameOrBefore c.Start p.Start = false := by simp; omega
  have d3 : decide (p.End < c.Start) = true := by simp [h2]
  simp [d1, d2, d3]

/-- `cut` when the fragment extends on both sides of a bounded cut (the
four preceding checks all failing): two fragments are produced. -/
theorem cutFrags_split_both (p c : Period) (h1 : c.Start ≠ 0) (h2 : c.End ≠ 0)
    (h3 : p.Start < c.Start) (h4 : c.End < p.End) (h5 : ¬p.End < c.Start)
    (h6 : ¬c.End < p.Start) :
    p.cutFrags c = [⟨p.Start, c.Start⟩, ⟨c.End, p.End⟩] := by
  unfold Period.cutFrags Period.cut
  have d1 : decide (c.Start = 0) = false := by simp [h1]
  have d2 : decide (c.End = 0) = false := by simp [h2]
  have d3 : SameOrBefore c.Start p.Start = false := by simp; omega
  have d4 : decide (p.End < c.Start) = false := by simp; omega
  have d5 : decide (c.End < p.Start) = false := by simp; omega
  have d6 : decide (p.Start < c.Start) = true := by simp [h3]
  have d7 : decide (c.End < p.End) = true := by simp [h4]
  simp [d1, d2, d3, d4, d5, d6, d7]

/-!
## Claim C10: `CutInclusive` with a zero receiver `End`

When the receiver's `End` is zero, `CutInclusive` indeed skips the shift
and restore passes on the receiver side — but the zero `End` is *not*
treated as unbounded by `cut`: the receiver's literal `End` (Go's zero
time) lies before any cut whose `Start` is after the epoch, so the first
disjointness test fires and the receiver is returned unchanged.  The
before-fragment ending exactly at `cut.Start` appears only when the cut's
bounds lie before the epoch (negative wall-clock instants).
-/

/-- C10 counterexample: receiver `[2020-01-01, zero End]` cut by the
non-zero cut `[2020-01-03, 2020-01-06]` (cut start strictly after the
receiver start): the result is the unchanged receiver — there is no
before-fragment with `End = cut.Start`. -/
theorem C10_cutInclusive_zero_end_counterexample :
    (Period.mk (dateUTC 2020 1 1) 0).CutInclusive
        [⟨dateUTC 2020 1 3, dateUTC 2020 1 6⟩] =
      [⟨dateUTC 2020 1 1, 0⟩] ∧
    ∀ f ∈ (Period.mk (dateUTC 2020 1 1) 0).CutInclusive
        [⟨dateUTC 2020 1 3, dateUTC 2020 1 6⟩], f.End ≠ dateUTC 2020 1 3 := by
  refine ⟨by decide, by decide⟩

/-- Unfolding `CutInclusive` when the receiver `End` is zero: no shift, no
restore pass; only the cuts are shifted. -/
theorem cutInclusive_zero_end (p : Period) (hp : p.End = 0) (cuts : List Period) :
    p.CutInclusive cuts =
      p.Cut (cuts.map fun c => if c.End = 0 then c else ⟨c.Start, c.End + 1⟩) := by
  unfold Period.CutInclusive sliceMap
  rw [if_pos hp, if_pos hp]

/-- Unfolding `CutInclusive` when the receiver `End` is non-zero: shift the
receiver and cuts, cut, restore the fragments. -/
theorem cutInclusive_nonzero_end (p : Period) (hp : ¬p.End = 0) (cuts : List Period) :
    p.CutInclusive cuts =
      ((Period.mk p.Start (p.End + 1)).Cut
          (cuts.map fun c => if c.End = 0 then c else ⟨c.Start, c.End + 1⟩)).map
        fun c => ⟨c.Start, c.End - 1⟩ := by
  unfold Period.CutInclusive sliceMap
  rw [if_neg hp, if_neg hp]

/-- C10 (amended): with a zero receiver `End` the restore pass is skipped,
and the zero `End` compares as the literal epoch: (a) a cut starting after
the epoch (and after the receiver start) leaves the receiver unchanged;
(b) when the cut's bounds lie before the epoch, the before-fragment ends
exactly at `cut.Start` (exclusive bound, no 1ns restore); (c) the same cut
against a receiver with a non-zero `End` yields a before-fragment ending at
`cut.Start` minus 1ns. -/
theorem C10_cutInclusive_zero_end_amended :
    (∀ s cs ce : Int, 0 < s → s < cs → ce ≠ 0 →
      (Period.mk s 0).CutInclusive [⟨cs, ce⟩] = [⟨s, 0⟩]) ∧
    (∀ s cs ce : Int, s < cs → cs < 0 → ce < -1 → s ≤ ce + 1 →
      (Period.mk s 0).CutInclusive [⟨cs, ce⟩] = [⟨s, cs⟩, ⟨ce + 1, 0⟩]) ∧
    (∀ s e cs ce : Int, e ≠ 0 → ce ≠ 0 → cs ≠ 0 → ce ≠ -1 → s < cs → cs ≤ e + 1 →
      ce < e → s ≤ ce + 1 →
      (Period.mk s e).CutInclusive [⟨cs, ce⟩] = [⟨s, cs - 1⟩, ⟨ce + 1, e⟩]) := by
  refine ⟨?_, ?_, ?_⟩
  · intro s cs ce h1 h2 h3
    rw [cutInclusive_zero_end ⟨s, 0⟩ rfl]
    simp only [List.map, if_neg h3]
    rw [cut_singleton]
    exact cutFrags_before ⟨s, 0⟩ ⟨cs, ce + 1⟩ (by dsimp; omega) (by dsimp; omega)
      (by dsimp; omega)
  · intro s cs ce h1 h2 h3 h4
    rw [cutInclusive_zero_end ⟨s, 0⟩ rfl]
    simp only [List.map, if_neg (show ce ≠ 0 by omega)]
    rw [cut_singleton]
    rw [cutFrags_split_both ⟨s, 0⟩ ⟨cs, ce + 1⟩ (by dsimp; omega) (by dsimp; omega)
      (by dsimp; omega) (by dsimp; omega) (by dsimp; omega) (by dsimp; omega)]
  · intro s e cs ce h1 h1b h2 h3 h4 h5 h6 h7
    rw [cutInclusive_nonzero_end ⟨s, e⟩ (by dsimp; omega)]
    simp only [List.map, if_neg (show ce ≠ 0 by omega)]
    rw [cut_singleton]
    rw [cutFrags_split_both ⟨s, e + 1⟩ ⟨cs, ce + 1⟩ (by dsimp; omega) (by dsimp; omega)
      (by dsimp; omega) (by dsimp; omega) (by dsimp; omega) (by dsimp; omega)]
    dsimp only [List.map]
    norm_num

/-- C10 witness: the amended theorem's three parts applied at concrete
inputs (`s = 10, cs = 20, ce = 5` for part (a); `s = -100, cs = -50,
ce = -10` for part (b); the same cut with receiver end `e = -2` for
part (c)). -/
theorem C10_cutInclusive_zero_end_amended_witness :
    (Period.mk 10 0).CutInclusive [⟨20, 5⟩] = [⟨10, 0⟩] ∧
      (Period.mk (-100) 0).CutInclusive [⟨-50, -10⟩] = [⟨-100, -50⟩, ⟨-9, 0⟩] ∧
      (Period.mk (-100) (-2)).CutInclusive [⟨-50, -10⟩] =
        [⟨-100, -51⟩, ⟨-9, -2⟩] :=
  ⟨C10_cutInclusive_zero_end_amended.1 10 20 5 (by decide) (by decide) (by decide),
    C10_cutInclusive_zero_end_amended.2.1 (-100) (-50) (-10) (by decide) (by decide)
      (by decide) (by decide),
    C10_cutInclusive_zero_end_amended.2.2 (-100) (-2) (-50) (-10) (by decide) (by decide)
      (by decide) (by decide) (by decide) (by decide) (by decide) (by decide)⟩

/-!
## Claim C8: ordering of `Cut` fragments

The ordering claim fails in general: a cut with `End` before `Start` (an
inverted interval, which nothing validates) can split a fragment into two
*overlapping* fragments, and a second cut with the same `Start` can then
split both, leaving the fragment starts out of order.  (Go's
`slices.SortFunc` runs a stable insertion sort on a two-element slice, so
the tie between the two cut starts is kept in input order there exactly as
in this model; the violation is realizable in the original code.)  For
cuts that denote real spans — `wellFormedCut` — the ordering holds, and is
proved below via the chain invariant "each fragment ends no later than the
next fragment starts".
-/

/-- C8 counterexample: two inverted cuts sharing a start produce fragments
whose starts are not ascending (`1000, 1020, 1010, 1020`). -/
theorem C8_cut_sorted_counterexample :
    (Period.mk 1000 1100).Cut [⟨1050, 1010⟩, ⟨1050, 1020⟩] =
      [⟨1000, 1050⟩, ⟨1020, 1050⟩, ⟨1010, 1050⟩, ⟨1020, 1100⟩] ∧
    ¬ List.Sorted startLE ((Period.mk 1000 1100).Cut [⟨1050, 1010⟩, ⟨1050, 1020⟩]) := by
  refine ⟨by decide, by decide⟩

/-- The exhaustive case analysis of `cutFrags`: the fragment list is the
unchanged `[p]`, empty, or one of the three split shapes, each with the
facts the guarding conditions provide. -/
theorem cutFrags_cases (p c : Period) :
    p.cutFrags c = [p] ∨ p.cutFrags c = [] ∨
      (p.cutFrags c = [⟨p.Start, c.Start⟩, ⟨c.End, p.End⟩] ∧
        c.Start ≠ 0 ∧ c.End ≠ 0 ∧ p.Start < c.Start ∧ c.End < p.End ∧
        c.Start ≤ p.End ∧ p.Start ≤ c.End) ∨
      (p.cutFrags c = [⟨p.Start, c.Start⟩] ∧
        c.Start ≠ 0 ∧ p.Start < c.Start ∧ c.Start ≤ p.End) ∨
      (p.cutFrags c = [⟨c.End, p.End⟩] ∧
        c.End ≠ 0 ∧ c.End < p.End ∧ p.Start ≤ c.End) := by
  simp only [Period.cutFrags, Period.cut]
  by_cases hA : (!decide (c.Start = 0) && SameOrBefore c.Start p.Start &&
      SameOrAfter c.End p.End) = true
  · rw [if_pos hA]; right; left; rfl
  · rw [if_neg hA]
    by_cases hB : (!decide (c.End = 0) && SameOrAfter c.End p.End &&
        SameOrBefore c.Start p.Start) = true
    · rw [if_pos hB]; right; left; rfl
    · rw [if_neg hB]
      by_cases hC : (!decide (c.Start = 0) && decide (p.End < c.Start) ||
          !decide (c.End = 0) && decide (c.End < p.Start)) = true
      · rw [if_pos hC]; left; rfl
      · rw [if_neg hC]
        simp only [Bool.or_eq_true, Bool.and_eq_true, Bool.not_eq_true',
          decide_eq_false_iff_not, decide_eq_true_eq, not_or, not_and] at hC
        by_cases hD : (!decide (c.Start = 0) && decide (p.Start < c.Start) &&
            (!decide (c.End = 0) && decide (c.End < p.End))) = true
        · rw [if_pos hD]
          simp only [Bool.and_eq_true, Bool.not_eq_true', decide_eq_false_iff_not,
            decide_eq_true_eq] at hD
          right; right; left
          refine ⟨rfl, hD.1.1, hD.2.1, hD.1.2, hD.2.2, ?_, ?_⟩
          · have := hC.1 hD.1.1; omega
          · have := hC.2 hD.2.1; omega
        · rw [if_neg hD]
          by_cases hE : (!decide (c.Start = 0) && decide (p.Start < c.Start)) = true
          · rw [if_pos hE]
            simp only [Bool.and_eq_true, Bool.not_eq_true', decide_eq_false_iff_not,
              decide_eq_true_eq] at hE
            right; right; right; left
            refine ⟨rfl, hE.1, hE.2, ?_⟩
            have := hC.1 hE.1; omega
          · rw [if_neg hE]
            by_cases hF : (!decide (c.End = 0) && decide (c.End < p.End)) = true
            · rw [if_pos hF]
              simp only [Bool.and_eq_true, Bool.not_eq_true', decide_eq_false_iff_not,
                decide_eq_true_eq] at hF
              right; right; right; right
              refine ⟨rfl, hF.1, hF.2, ?_⟩
              have := hC.2 hF.1; omega
            · rw [if_neg hF]; left; rfl

/-- Every fragment of `cutFrags` stays within the spanned range of its
parent: it starts no earlier and ends no later. -/
theorem cutFrags_mem_bounds {p c f : Period} (hf : f ∈ p.cutFrags c) :
    p.Start ≤ f.Start ∧ f.End ≤ p.End := by
  rcases cutFrags_cases p c with h | h | ⟨h, hs⟩ | ⟨h, hs⟩ | ⟨h, hs⟩ <;>
    rw [h] at hf <;> simp only [List.mem_singleton, List.mem_cons,
      List.not_mem_nil, or_false] at hf
  · subst hf; exact ⟨le_refl _, le_refl _⟩
  · rcases hf with hf | hf <;> subst hf <;> dsimp <;> constructor <;> omega
  · subst hf; dsimp; constructor <;> omega
  · subst hf; dsimp; constructor <;> omega

/-- Fragments of a well-formed parent are well-formed. -/
theorem cutFrags_mem_wf {p c f : Period} (hp : p.Start ≤ p.End)
    (hf : f ∈ p.cutFrags c) : f.Start ≤ f.End := by
  rcases cutFrags_cases p c with h | h | ⟨h, hs⟩ | ⟨h, hs⟩ | ⟨h, hs⟩ <;>
    rw [h] at hf <;> simp only [List.mem_singleton, List.mem_cons,
      List.not_mem_nil, or_false] at hf
  · subst hf; exact hp
  · rcases hf with hf | hf <;> subst hf <;> dsimp <;> omega
  · subst hf; dsimp; omega
  · subst hf; dsimp; omega

/-- Every fragment is well-formed, or the fragment list is the unchanged
singleton `[p]`. -/
theorem cutFrags_each {p c f : Period} (hf : f ∈ p.cutFrags c) :
    f.Start ≤ f.End ∨ p.cutFrags c = [f] := by
  rcases cutFrags_cases p c with h | h | ⟨h, hs⟩ | ⟨h, hs⟩ | ⟨h, hs⟩ <;>
    rw [h] at hf <;> simp only [List.mem_singleton, List.mem_cons,
      List.not_mem_nil, or_false] at hf
  · subst hf; right; exact h
  · rcases hf with hf | hf <;> subst hf <;> left <;> dsimp <;> omega
  · subst hf; left; dsimp; omega
  · subst hf; left; dsimp; omega

/-- For a well-formed cut, the fragments of one parent are chained: each
ends no later than the next starts.  (Only the two-fragment shape has a
pair to check, and there `c.Start ≤ c.End` by well-formedness.) -/
theorem cutFrags_pairwise (p c : Period) (hc : wellFormedCut c) :
    List.Pairwise (fun a b => a.End ≤ b.Start) (p.cutFrags c) := by
  rcases cutFrags_cases p c with h | h | ⟨h, hs⟩ | ⟨h, hs⟩ | ⟨h, hs⟩ <;> rw [h]
  · simp
  · simp
  · refine List.pairwise_cons.mpr ⟨?_, by simp⟩
    intro b hb
    simp only [List.mem_singleton] at hb
    subst hb
    dsimp
    rcases hc with h0 | h0 | h0
    · exact absurd h0 hs.1
    · exact absurd h0 hs.2.1
    · exact h0
  · simp
  · simp

/-- Applying one well-formed cut to a chained fragment list yields a
chained fragment list: fragments of one parent are chained among
themselves, and fragments of distinct parents inherit the chain of their
parents via `cutFrags_mem_bounds`. -/
theorem pairwise_sep_flatMap (c : Period) (hc : wellFormedCut c) :
    ∀ L : List Period, List.Pairwise (fun a b => a.End ≤ b.Start) L →
      List.Pairwise (fun a b => a.End ≤ b.Start)
        (L.flatMap fun r => r.cutFrags c) := by
  intro L
  induction L with
  | nil => simp
  | cons r L ih =>
    intro h
    rw [List.pairwise_cons] at h
    rw [List.flatMap_cons, List.pairwise_append]
    refine ⟨cutFrags_pairwise r c hc, ih h.2, ?_⟩
    intro a ha b hb
    obtain ⟨r', hr', hbr'⟩ := List.mem_flatMap.mp hb
    have h1 := (cutFrags_mem_bounds ha).2
    have h2 := (cutFrags_mem_bounds hbr').1
    have h3 := h.1 r' hr'
    omega

/-- The invariant carried through `Cut`'s fold: the fragment list stays
chained, and each fragment is well-formed unless it is alone in the list
(the unchanged, possibly inverted receiver). -/
theorem cut_fold_invariant :
    ∀ cuts : List Period, (∀ c ∈ cuts, wellFormedCut c) →
    ∀ L : List Period, List.Pairwise (fun a b => a.End ≤ b.Start) L →
      (∀ f ∈ L, f.Start ≤ f.End ∨ L = [f]) →
      List.Pairwise (fun a b => a.End ≤ b.Start)
          (cuts.foldl (fun remaining c => remaining.flatMap fun r => r.cutFrags c) L) ∧
        ∀ f ∈ cuts.foldl (fun remaining c => remaining.flatMap fun r => r.cutFrags c) L,
          f.Start ≤ f.End ∨
            cuts.foldl (fun remaining c => remaining.flatMap fun r => r.cutFrags c) L
              = [f] := by
  intro cuts
  induction cuts with
  | nil => intro _ L h1 h2; exact ⟨h1, h2⟩
  | cons c cuts ih =>
    intro hc L h1 h2
    rw [List.foldl_cons]
    refine ih (fun c' hc' => hc c' (List.mem_cons_of_mem _ hc'))
      (L.flatMap fun r => r.cutFrags c) ?_ ?_
    · exact pairwise_sep_flatMap c (hc c (List.mem_cons_self c cuts)) L h1
    · intro f hf
      obtain ⟨r, hr, hfr⟩ := List.mem_flatMap.mp hf
      rcases h2 r hr with hwf | hsingle
      · exact Or.inl (cutFrags_mem_wf hwf hfr)
      · have hL : (L.flatMap fun r => r.cutFrags c) = r.cutFrags c := by
          rw [hsingle]; simp
        rcases cutFrags_each hfr with hwf | heq
        · exact Or.inl hwf
        · right; rw [hL, heq]

/-- C8 (amended): for every receiver and every list of cuts that are all
well-formed (`Start ≤ End` whenever both bounds are non-zero — zero bounds
are unbounded), the fragments returned by `Cut` are ordered ascending by
`Start`.  (For inverted cuts the ordering can fail; see the
counterexample.) -/
theorem C8_cut_sorted_amended (p : Period) (cuts : List Period)
    (hc : ∀ c ∈ cuts, wellFormedCut c) :
    List.Sorted startLE (p.Cut cuts) := by
  unfold Period.Cut
  have hc' : ∀ c ∈ List.insertionSort startLE cuts, wellFormedCut c := fun c hcm =>
    hc c ((List.perm_insertionSort startLE cuts).mem_iff.mp hcm)
  obtain ⟨hpw, hel⟩ := cut_fold_invariant _ hc' [p] (by simp) (by simp)
  generalize hres :
    (List.insertionSort startLE cuts).foldl
      (fun remaining c => remaining.flatMap fun r => r.cutFrags c) [p] = result at hpw hel
  match result with
  | [] => simp
  | [f] => simp [List.Sorted]
  | f :: g :: t =>
    have hwfall : ∀ x ∈ f :: g :: t, x.Start ≤ x.End := by
      intro x hx
      rcases hel x hx with h | h
      · exact h
      · simp at h
    refine hpw.imp_of_mem ?_
    intro a b ha hb hr
    have := hwfall a ha
    unfold startLE
    omega

/-- C8 witness: the amended theorem applied to a receiver with two
well-formed cuts. -/
theorem C8_cut_sorted_amended_witness :
    (∀ c ∈ [Period.mk 1030 1060, Period.mk 1010 1020], wellFormedCut c) ∧
      List.Sorted startLE
        ((Period.mk 1000 1100).Cut [⟨1030, 1060⟩, ⟨1010, 1020⟩]) :=
  ⟨by decide, C8_cut_sorted_amended ⟨1000, 1100⟩ [⟨1030, 1060⟩, ⟨1010, 1020⟩]
    (by decide)⟩

/-!
## Claim C5: `Merge`

`Merge` content is *not* invariant under permutations of the input list in
general.  A zero period never overlaps anything (`IsZero` short-circuits),
so the sweep decides its fate through the `SameOrBefore(last.End, q.Start)`
gap check, which depends on which of two periods tied at the same `Start`
was swept first.  (Go's `sort.Slice` runs an insertion sort on three
elements, so the tie order is the input order there exactly as in this
model.)  For valid, pairwise non-overlapping inputs the claim holds:
everything is preserved, sorted and permutation-invariant.
-/

/-- C5 counterexample: `ps' = [⟨0,0⟩, ⟨0,5⟩]` is a permutation of
`ps = [⟨0,5⟩, ⟨0,0⟩]`, yet merging them into `[10ns, 20ns)` gives result
contents that differ: the zero period is dropped in one order and kept in
the other. -/
theorem C5_merge_counterexample :
    List.Perm [Period.mk 0 5, Period.mk 0 0] [Period.mk 0 0, Period.mk 0 5] ∧
      (Period.mk 10 20).Merge [⟨0, 5⟩, ⟨0, 0⟩] = [⟨0, 5⟩, ⟨10, 20⟩] ∧
      (Period.mk 10 20).Merge [⟨0, 0⟩, ⟨0, 5⟩] = [⟨0, 0⟩, ⟨0, 5⟩, ⟨10, 20⟩] ∧
      Period.mk 0 0 ∉ (Period.mk 10 20).Merge [⟨0, 5⟩, ⟨0, 0⟩] ∧
      Period.mk 0 0 ∈ (Period.mk 10 20).Merge [⟨0, 0⟩, ⟨0, 5⟩] := by
  refine ⟨by decide, by decide, by decide, by decide, by decide⟩

/-- `OverlapsWithStep` is symmetric: the zero test and the four
containment tests are invariant under swapping the two periods. -/
theorem overlapsWithStep_symm (step : Int) (a b : Period) :
    a.OverlapsWithStep step b = b.OverlapsWithStep step a := by
  unfold Period.OverlapsWithStep
  cases haz : a.IsZero <;> cases hbz : b.IsZero
  · simp only [Bool.or_self, Bool.false_eq_true, if_false]
    rw [Bool.eq_iff_iff]
    simp only [Bool.or_eq_true, betweenInclusive_eq_true]
    tauto
  · simp
  · simp
  · simp

/-- For valid periods, failing the step-0 overlap test means the closed
spans `[Start, End]` are disjoint. -/
theorem overlap0_eq_false {a b : Period} (ha : a.Validate = none)
    (hb : b.Validate = none) :
    (a.OverlapsWithStep 0 b = false) ↔ (b.End < a.Start ∨ a.End < b.Start) := by
  have ha' := validate_eq_none.mp ha
  have hb' := validate_eq_none.mp hb
  unfold Period.OverlapsWithStep
  rw [isZero_eq_false_of_valid ha, isZero_eq_false_of_valid hb]
  simp only [Bool.or_self, Bool.false_eq_true, if_false, absoluteStep_zero,
    Bool.or_eq_false_iff, betweenInclusive_eq_false]
  omega

/-- Two valid periods that do not overlap under step 0 cannot share a
start. -/
theorem overlap0_false_start_ne {a b : Period} (ha : a.Validate = none)
    (hb : b.Validate = none) (h : a.OverlapsWithStep 0 b = false) :
    a.Start ≠ b.Start := by
  have ha' := validate_eq_none.mp ha
  have hb' := validate_eq_none.mp hb
  have := (overlap0_eq_false ha hb).mp h
  omega

/-- The sweep of `MergeStep 0` over a sorted list of valid, pairwise
non-overlapping periods appends every element unchanged. -/
theorem mergeSweep_no_overlap :
    ∀ (rest : List Period) (q : Period), (∀ x ∈ q :: rest, x.Validate = none) →
      List.Pairwise (fun a b => a.OverlapsWithStep 0 b = false) (q :: rest) →
      List.Sorted startLE (q :: rest) →
      mergeSweep 0 q rest = q :: rest := by
  intro rest
  induction rest with
  | nil => intro q _ _ _; rfl
  | cons r rest ih =>
    intro q hv hno hs
    have hvq : q.Validate = none := hv q (List.mem_cons_self q _)
    have hvr : r.Validate = none := hv r (List.mem_cons_of_mem _ (List.mem_cons_self r _))
    rw [List.pairwise_cons] at hno
    have hov : q.OverlapsWithStep 0 r = false := hno.1 r (List.mem_cons_self r _)
    have hqr : q.Start ≤ r.Start :=
      List.rel_of_sorted_cons hs r (List.mem_cons_self r _)
    have hgap : q.End < r.Start := by
      have hr' := validate_eq_none.mp hvr
      rcases (overlap0_eq_false hvq hvr).mp hov with h | h <;> omega
    unfold mergeSweep
    rw [if_neg (by rw [hov]; exact Bool.false_ne_true),
      if_pos (by rw [sameOrBefore_eq_true]; omega)]
    congr 1
    exact ih r (fun x hx => hv x (List.mem_cons_of_mem _ hx)) hno.2 hs.of_cons

/-- On valid, pairwise non-overlapping inputs, `MergeStep 0` returns
exactly the sorted combination of the receiver and the inputs. -/
theorem merge_eq_sort (p : Period) (ps : List Period) (hps : ps ≠ [])
    (hv : ∀ q ∈ p :: ps, q.Validate = none)
    (hno : List.Pairwise (fun a b => a.OverlapsWithStep 0 b = false) (p :: ps)) :
    p.MergeStep 0 ps = List.insertionSort startLE (p :: ps) := by
  match ps, hps with
  | q0 :: ps', _ =>
    simp only [Period.MergeStep]
    cases hsort : List.insertionSort startLE (p :: q0 :: ps') with
    | nil => rfl
    | cons q rest =>
      have hperm : List.Perm (q :: rest) (p :: q0 :: ps') := by
        rw [← hsort]; exact List.perm_insertionSort startLE _
      have hv' : ∀ x ∈ q :: rest, x.Validate = none := fun x hx =>
        hv x (hperm.mem_iff.mp hx)
      have hno' : List.Pairwise (fun a b => a.OverlapsWithStep 0 b = false) (q :: rest) := by
        refine (hperm.pairwise_iff ?_).mpr hno
        intro a b hab
        rw [overlapsWithStep_symm]
        exact hab
      have hs' : List.Sorted startLE (q :: rest) := by
        rw [← hsort]
        exact List.sorted_insertionSort startLE _
      exact mergeSweep_no_overlap rest q hv' hno' hs'

/-- Two sorted lists that are permutations of each other and have pairwise
distinct `Start` values are equal: sorting is unique once ties are
impossible. -/
theorem sorted_perm_eq_of_distinct_starts {l1 l2 : List Period}
    (hperm : l1.Perm l2) (hs1 : List.Sorted startLE l1)
    (hs2 : List.Sorted startLE l2)
    (hd : List.Pairwise (fun a b => a.Start ≠ b.Start) l1) : l1 = l2 := by
  have hd2 : List.Pairwise (fun a b => a.Start ≠ b.Start) l2 :=
    (hperm.pairwise_iff fun hab => Ne.symm hab).mp hd
  refine @List.eq_of_perm_of_sorted Period (fun a b => a = b ∨ a.Start < b.Start)
    ⟨fun a b hab hba => ?_⟩ l1 l2 hperm ?_ ?_
  · rcases hab with h | h
    · exact h
    · rcases hba with h2 | h2
      · exact h2.symm
      · exact absurd h2 (by omega)
  · exact (hs1.and hd).imp fun h => Or.inr (lt_of_le_of_ne h.1 h.2)
  · exact (hs2.and hd2).imp fun h => Or.inr (lt_of_le_of_ne h.1 h.2)


/-!
### Permutation invariance of `Merge` for valid inputs

For valid periods the sweep's silent-drop branch is unreachable (a valid
period whose start lies within the accumulated span always overlaps it
under step 0), and two inputs tied at the same `Start` commute through the
sweep: whichever is swept first, the accumulated span ends at the maximum
of the ends.  Hence the sweep result depends only on the multiset of
inputs, and `Merge` is invariant under permutations of any valid input
list — overlapping inputs included.
-/

theorem le_maxTime_left (a b : Int) : a ≤ maxTime a b := by
  unfold maxTime; split <;> omega

theorem maxTime_comm (a b : Int) : maxTime a b = maxTime b a := by
  unfold maxTime; split_ifs <;> omega

theorem maxTime_right_comm (a b c : Int) :
    maxTime (maxTime a b) c = maxTime (maxTime a c) b := by
  unfold maxTime; split_ifs <;> omega

/-- For valid periods, the step-0 overlap test is the closed-interval
intersection test. -/
theorem overlap0_eq_true {a b : Period} (ha : a.Validate = none)
    (hb : b.Validate = none) :
    (a.OverlapsWithStep 0 b = true) ↔ (a.Start ≤ b.End ∧ b.Start ≤ a.End) := by
  have h := overlap0_eq_false ha hb
  constructor
  · intro htrue
    by_contra hc
    have hfalse : a.OverlapsWithStep 0 b = false := h.mpr (by omega)
    rw [htrue] at hfalse
    exact absurd hfalse (by simp)
  · intro hc
    cases hov : a.OverlapsWithStep 0 b
    · have := h.mp hov
      omega
    · rfl

/-- Extending the accumulated period by a valid period's end keeps it
valid. -/
theorem merged_last_valid {last q : Period} (hl : last.Validate = none)
    (hq : q.Validate = none) :
    (Period.mk last.Start (maxTime last.End q.End)).Validate = none := by
  rw [validate_eq_none] at hl hq ⊢
  dsimp only
  unfold maxTime
  split_ifs <;> omega

/-- The cons equation of `mergeSweep`, for rewriting one sweep step at a
time. -/
theorem mergeSweep_cons (step : Int) (last q : Period) (rest : List Period) :
    mergeSweep step last (q :: rest) =
      if last.OverlapsWithStep step q then
        mergeSweep step ⟨last.Start, maxTime last.End q.End⟩ rest
      else if SameOrBefore last.End q.Start then last :: mergeSweep step q rest
      else mergeSweep step last rest := rfl

theorem mergeSweep_cons_merge {step : Int} {last q : Period} {rest : List Period}
    (h : last.OverlapsWithStep step q = true) :
    mergeSweep step last (q :: rest) =
      mergeSweep step ⟨last.Start, maxTime last.End q.End⟩ rest := by
  rw [mergeSweep_cons, if_pos h]

theorem mergeSweep_cons_append {step : Int} {last q : Period} {rest : List Period}
    (h1 : last.OverlapsWithStep step q = false)
    (h2 : SameOrBefore last.End q.Start = true) :
    mergeSweep step last (q :: rest) = last :: mergeSweep step q rest := by
  rw [mergeSweep_cons, if_neg (by simp [h1]), if_pos h2]

theorem mergeSweep_cons_drop {step : Int} {last q : Period} {rest : List Period}
    (h1 : last.OverlapsWithStep step q = false)
    (h2 : SameOrBefore last.End q.Start = false) :
    mergeSweep step last (q :: rest) = mergeSweep step last rest := by
  rw [mergeSweep_cons, if_neg (by simp [h1]), if_neg (by simp [h2])]

/-- Two valid periods tied at the same `Start` commute as the next two
sweep inputs: either both merge into the accumulator, or the first of them
is appended and the second merges into it; the resulting accumulator end is
the maximum of the ends either way. -/
theorem mergeSweep_swap (last q q' : Period) (m : List Period)
    (hlast : last.Validate = none) (hq : q.Validate = none)
    (hq' : q'.Validate = none) (hss : q.Start = q'.Start)
    (hls : last.Start ≤ q.Start) :
    mergeSweep 0 last (q :: q' :: m) = mergeSweep 0 last (q' :: q :: m) := by
  have hl := validate_eq_none.mp hlast
  have hqv := validate_eq_none.mp hq
  have hq'v := validate_eq_none.mp hq'
  by_cases hc : q.Start ≤ last.End
  · have e1 : last.OverlapsWithStep 0 q = true :=
      (overlap0_eq_true hlast hq).mpr ⟨by omega, by omega⟩
    have e2 : last.OverlapsWithStep 0 q' = true :=
      (overlap0_eq_true hlast hq').mpr ⟨by omega, by omega⟩
    have m1 := merged_last_valid hlast hq
    have m2 := merged_last_valid hlast hq'
    have hm1 := le_maxTime_left last.End q.End
    have hm2 := le_maxTime_left last.End q'.End
    have e3 : (Period.mk last.Start (maxTime last.End q.End)).OverlapsWithStep 0 q'
        = true :=
      (overlap0_eq_true m1 hq').mpr ⟨by dsimp; omega, by dsimp; omega⟩
    have e4 : (Period.mk last.Start (maxTime last.End q'.End)).OverlapsWithStep 0 q
        = true :=
      (overlap0_eq_true m2 hq).mpr ⟨by dsimp; omega, by dsimp; omega⟩
    rw [mergeSweep_cons_merge e1, mergeSweep_cons_merge e3,
      mergeSweep_cons_merge e2, mergeSweep_cons_merge e4]
    dsimp only
    rw [maxTime_right_comm]
  · have e1 : last.OverlapsWithStep 0 q = false :=
      (overlap0_eq_false hlast hq).mpr (Or.inr (by omega))
    have e2 : last.OverlapsWithStep 0 q' = false :=
      (overlap0_eq_false hlast hq').mpr (Or.inr (by omega))
    have s1 : SameOrBefore last.End q.Start = true := by
      rw [sameOrBefore_eq_true]; omega
    have s2 : SameOrBefore last.End q'.Start = true := by
      rw [sameOrBefore_eq_true]; omega
    have e3 : q.OverlapsWithStep 0 q' = true :=
      (overlap0_eq_true hq hq').mpr ⟨by omega, by omega⟩
    have e4 : q'.OverlapsWithStep 0 q = true :=
      (overlap0_eq_true hq' hq).mpr ⟨by omega, by omega⟩
    rw [mergeSweep_cons_append e1 s1, mergeSweep_cons_merge e3,
      mergeSweep_cons_append e2 s2, mergeSweep_cons_merge e4]
    have : (Period.mk q.Start (maxTime q.End q'.End)) =
        ⟨q'.Start, maxTime q'.End q.End⟩ := by
      rw [hss, maxTime_comm]
    rw [this]

/-- The sweep result over a sorted list of valid periods depends only on
the multiset of periods: any two sorted-by-`Start` permutations sweep to
the same list.  Induction on the length: both heads carry the minimal
start; if they are the same element the tails are permutations, otherwise
the second head is moved to the front of the first tail (a sorted
permutation of it) and the two tied heads are swapped with
`mergeSweep_swap`. -/
theorem mergeSweep_perm (n : Nat) :
    ∀ (l l' : List Period) (last : Period), l.length = n → l.Perm l' →
      List.Sorted startLE l → List.Sorted startLE l' →
      (∀ x ∈ l, x.Validate = none) → last.Validate = none →
      (∀ x ∈ l, last.Start ≤ x.Start) →
      mergeSweep 0 last l = mergeSweep 0 last l' := by
  induction n with
  | zero =>
    intro l l' last hlen hperm _ _ _ _ _
    have hl : l = [] := List.length_eq_zero.mp hlen
    subst hl
    rw [List.perm_nil.mp hperm.symm]
  | succ n ih =>
    intro l l' last hlen hperm hs hs' hv hlast hls
    obtain ⟨q, t, rfl⟩ : ∃ q t, l = q :: t := by
      cases l with
      | nil => simp at hlen
      | cons a b => exact ⟨a, b, rfl⟩
    obtain ⟨q', t', rfl⟩ : ∃ a b, l' = a :: b := by
      cases l' with
      | nil => exact absurd (List.perm_nil.mp hperm) (by simp)
      | cons a b => exact ⟨a, b, rfl⟩
    have hlent : t.length = n := by simpa using hlen
    have hq't : q' ∈ q :: t := hperm.mem_iff.mpr (List.mem_cons_self q' t')
    have hqt' : q ∈ q' :: t' := hperm.mem_iff.mp (List.mem_cons_self q t)
    have hsq : q.Start = q'.Start := by
      have a1 : q.Start ≤ q'.Start := by
        rcases List.mem_cons.mp hq't with h | h
        · rw [h]
        · exact List.rel_of_sorted_cons hs q' h
      have a2 : q'.Start ≤ q.Start := by
        rcases List.mem_cons.mp hqt' with h | h
        · rw [h]
        · exact List.rel_of_sorted_cons hs' q h
      omega
    have hvq : q.Validate = none := hv q (List.mem_cons_self q t)
    have hvt : ∀ x ∈ t, x.Validate = none := fun x hx =>
      hv x (List.mem_cons_of_mem _ hx)
    have hlst : ∀ x ∈ t, last.Start ≤ x.Start := fun x hx =>
      hls x (List.mem_cons_of_mem _ hx)
    have hqst : ∀ x ∈ t, q.Start ≤ x.Start := fun x hx =>
      List.rel_of_sorted_cons hs x hx
    by_cases heq : q = q'
    · subst heq
      have ht : t.Perm t' := hperm.cons_inv
      by_cases h1 : last.OverlapsWithStep 0 q = true
      · rw [mergeSweep_cons_merge h1, mergeSweep_cons_merge h1]
        exact ih t t' _ hlent ht hs.of_cons hs'.of_cons hvt
          (merged_last_valid hlast hvq) (fun x hx => hlst x hx)
      · rw [Bool.not_eq_true] at h1
        by_cases h2 : SameOrBefore last.End q.Start = true
        · rw [mergeSweep_cons_append h1 h2, mergeSweep_cons_append h1 h2]
          congr 1
          exact ih t t' q hlent ht hs.of_cons hs'.of_cons hvt hvq hqst
        · rw [Bool.not_eq_true] at h2
          rw [mergeSweep_cons_drop h1 h2, mergeSweep_cons_drop h1 h2]
          exact ih t t' last hlent ht hs.of_cons hs'.of_cons hvt hlast hlst
    · have hq'mem : q' ∈ t := by
        rcases List.mem_cons.mp hq't with h | h
        · exact absurd h.symm heq
        · exact h
      have hvq' : q'.Validate = none := hvt q' hq'mem
      have hperm1 : t.Perm (q' :: t.erase q') := List.perm_cons_erase hq'mem
      have hlen1 : (q' :: t.erase q').length = n := by
        rw [← hperm1.length_eq]
        exact hlent
      have hsort_e : List.Sorted startLE (t.erase q') :=
        hs.of_cons.sublist (List.erase_sublist q' t)
      have hmem_e : ∀ x ∈ t.erase q', x ∈ t := fun x hx =>
        List.mem_of_mem_erase hx
      have hsort1 : List.Sorted startLE (q' :: t.erase q') :=
        List.pairwise_cons.mpr
          ⟨fun x hx => by
            have := hqst x (hmem_e x hx)
            unfold startLE at *
            omega, hsort_e⟩
      have hsort2 : List.Sorted startLE (q :: t.erase q') :=
        List.pairwise_cons.mpr ⟨fun x hx => hqst x (hmem_e x hx), hsort_e⟩
      have hv1 : ∀ x ∈ q' :: t.erase q', x.Validate = none := by
        intro x hx
        rcases List.mem_cons.mp hx with h | h
        · rw [h]; exact hvq'
        · exact hvt x (hmem_e x h)
      have hv2 : ∀ x ∈ q :: t.erase q', x.Validate = none := by
        intro x hx
        rcases List.mem_cons.mp hx with h | h
        · rw [h]; exact hvq
        · exact hvt x (hmem_e x h)
      have hperm2 : (q :: t.erase q').Perm t' := by
        have h2 := hperm.erase q'
        rw [List.erase_cons_head] at h2
        rw [List.erase_cons_tail (by simp [heq])] at h2
        exact h2
      have hlen2 : (q :: t.erase q').length = n := by
        rw [hperm2.length_eq]
        have := hperm.length_eq
        simp at this
        omega
      -- move q' to the front of t, swap the tied heads, then line up with t'
      have step1 : mergeSweep 0 last (q :: t) =
          mergeSweep 0 last (q :: q' :: t.erase q') := by
        by_cases h1 : last.OverlapsWithStep 0 q = true
        · rw [mergeSweep_cons_merge h1, mergeSweep_cons_merge h1]
          exact ih t (q' :: t.erase q') _ hlent hperm1 hs.of_cons hsort1 hvt
            (merged_last_valid hlast hvq) hlst
        · rw [Bool.not_eq_true] at h1
          by_cases h2 : SameOrBefore last.End q.Start = true
          · rw [mergeSweep_cons_append h1 h2, mergeSweep_cons_append h1 h2]
            congr 1
            exact ih t (q' :: t.erase q') q hlent hperm1 hs.of_cons hsort1 hvt hvq hqst
          · rw [Bool.not_eq_true] at h2
            rw [mergeSweep_cons_drop h1 h2, mergeSweep_cons_drop h1 h2]
            exact ih t (q' :: t.erase q') last hlent hperm1 hs.of_cons hsort1 hvt
              hlast hlst
      have step2 : mergeSweep 0 last (q :: q' :: t.erase q') =
          mergeSweep 0 last (q' :: q :: t.erase q') :=
        mergeSweep_swap last q q' (t.erase q') hlast hvq hvq' hsq
          (hls q (List.mem_cons_self q t))
      have hq'start : ∀ x ∈ q :: t.erase q', q'.Start ≤ x.Start := by
        intro x hx
        rcases List.mem_cons.mp hx with h | h
        · rw [h]; omega
        · have := hqst x (hmem_e x h)
          omega
      have step3 : mergeSweep 0 last (q' :: q :: t.erase q') =
          mergeSweep 0 last (q' :: t') := by
        by_cases h1 : last.OverlapsWithStep 0 q' = true
        · rw [mergeSweep_cons_merge h1, mergeSweep_cons_merge h1]
          exact ih (q :: t.erase q') t' _ hlen2 hperm2 hsort2 hs'.of_cons hv2
            (merged_last_valid hlast hvq') (fun x hx => by
              rcases List.mem_cons.mp hx with h | h
              · rw [h]; dsimp; exact hls q (List.mem_cons_self q t)
              · dsimp; exact hlst x (hmem_e x h))
        · rw [Bool.not_eq_true] at h1
          by_cases h2 : SameOrBefore last.End q'.Start = true
          · rw [mergeSweep_cons_append h1 h2, mergeSweep_cons_append h1 h2]
            congr 1
            exact ih (q :: t.erase q') t' q' hlen2 hperm2 hsort2 hs'.of_cons hv2
              hvq' hq'start
          · rw [Bool.not_eq_true] at h2
            rw [mergeSweep_cons_drop h1 h2, mergeSweep_cons_drop h1 h2]
            exact ih (q :: t.erase q') t' last hlen2 hperm2 hsort2 hs'.of_cons hv2
              hlast (fun x hx => by
                rcases List.mem_cons.mp hx with h | h
                · rw [h]; exact hls q (List.mem_cons_self q t)
                · exact hlst x (hmem_e x h))
      rw [step1, step2, step3]

/-- Two valid tied-start heads of the sweep give the same result: the
second immediately merges into the first, producing the maximum end either
way. -/
theorem mergeSweep_head_swap (q q2 : Period) (m : List Period)
    (hq : q.Validate = none) (hq2 : q2.Validate = none)
    (hss : q.Start = q2.Start) :
    mergeSweep 0 q (q2 :: m) = mergeSweep 0 q2 (q :: m) := by
  have hqv := validate_eq_none.mp hq
  have hq2v := validate_eq_none.mp hq2
  have e1 : q.OverlapsWithStep 0 q2 = true :=
    (overlap0_eq_true hq hq2).mpr ⟨by omega, by omega⟩
  have e2 : q2.OverlapsWithStep 0 q = true :=
    (overlap0_eq_true hq2 hq).mpr ⟨by omega, by omega⟩
  rw [mergeSweep_cons_merge e1, mergeSweep_cons_merge e2]
  have : (Period.mk q.Start (maxTime q.End q2.End)) =
      ⟨q2.Start, maxTime q2.End q.End⟩ := by
    rw [hss, maxTime_comm]
  rw [this]

/-- The full sweep (first sorted element as the seed accumulator) is the
same for any two sorted permutations of a list of valid periods. -/
theorem mergeSweep_head_perm (q : Period) (rest : List Period) (q2 : Period)
    (rest2 : List Period) (hperm : (q :: rest).Perm (q2 :: rest2))
    (hs : List.Sorted startLE (q :: rest))
    (hs2 : List.Sorted startLE (q2 :: rest2))
    (hv : ∀ x ∈ q :: rest, x.Validate = none) :
    mergeSweep 0 q rest = mergeSweep 0 q2 rest2 := by
  have hq2mem : q2 ∈ q :: rest := hperm.mem_iff.mpr (List.mem_cons_self q2 rest2)
  have hqmem : q ∈ q2 :: rest2 := hperm.mem_iff.mp (List.mem_cons_self q rest)
  have hsq : q.Start = q2.Start := by
    have a1 : q.Start ≤ q2.Start := by
      rcases List.mem_cons.mp hq2mem with h | h
      · rw [h]
      · exact List.rel_of_sorted_cons hs q2 h
    have a2 : q2.Start ≤ q.Start := by
      rcases List.mem_cons.mp hqmem with h | h
      · rw [h]
      · exact List.rel_of_sorted_cons hs2 q h
    omega
  have hvq : q.Validate = none := hv q (List.mem_cons_self q rest)
  have hvrest : ∀ x ∈ rest, x.Validate = none := fun x hx =>
    hv x (List.mem_cons_of_mem _ hx)
  have hqstart : ∀ x ∈ rest, q.Start ≤ x.Start := fun x hx =>
    List.rel_of_sorted_cons hs x hx
  by_cases heq : q = q2
  · subst heq
    exact mergeSweep_perm rest.length rest rest2 q rfl hperm.cons_inv hs.of_cons
      hs2.of_cons hvrest hvq hqstart
  · have hq2rest : q2 ∈ rest := by
      rcases List.mem_cons.mp hq2mem with h | h
      · exact absurd h.symm heq
      · exact h
    have hvq2 : q2.Validate = none := hvrest q2 hq2rest
    have hperm1 : rest.Perm (q2 :: rest.erase q2) := List.perm_cons_erase hq2rest
    have hsort_e : List.Sorted startLE (rest.erase q2) :=
      hs.of_cons.sublist (List.erase_sublist q2 rest)
    have hmem_e : ∀ x ∈ rest.erase q2, x ∈ rest := fun x hx =>
      List.mem_of_mem_erase hx
    have hsort1 : List.Sorted startLE (q2 :: rest.erase q2) :=
      List.pairwise_cons.mpr
        ⟨fun x hx => by
          have := hqstart x (hmem_e x hx)
          unfold startLE at *
          omega, hsort_e⟩
    have hsort2 : List.Sorted startLE (q :: rest.erase q2) :=
      List.pairwise_cons.mpr ⟨fun x hx => hqstart x (hmem_e x hx), hsort_e⟩
    have hv2 : ∀ x ∈ q :: rest.erase q2, x.Validate = none := by
      intro x hx
      rcases List.mem_cons.mp hx with h | h
      · rw [h]; exact hvq
      · exact hvrest x (hmem_e x h)
    have hperm2 : (q :: rest.erase q2).Perm rest2 := by
      have h2 := hperm.erase q2
      rw [List.erase_cons_head] at h2
      rw [List.erase_cons_tail (by simp [heq])] at h2
      exact h2
    have step1 : mergeSweep 0 q rest = mergeSweep 0 q (q2 :: rest.erase q2) :=
      mergeSweep_perm rest.length rest _ q rfl hperm1 hs.of_cons hsort1 hvrest
        hvq hqstart
    have step2 : mergeSweep 0 q (q2 :: rest.erase q2) =
        mergeSweep 0 q2 (q :: rest.erase q2) :=
      mergeSweep_head_swap q q2 (rest.erase q2) hvq hvq2 hsq
    have step3 : mergeSweep 0 q2 (q :: rest.erase q2) = mergeSweep 0 q2 rest2 :=
      mergeSweep_perm (q :: rest.erase q2).length _ rest2 q2 rfl hperm2 hsort2
        hs2.of_cons hv2 hvq2 (fun x hx => by
          rcases List.mem_cons.mp hx with h | h
          · rw [h]; omega
          · have := hqstart x (hmem_e x h)
            omega)
    rw [step1, step2, step3]

/-- `MergeStep 0` gives the same result on any permutation of a valid
input list. -/
theorem mergeStep_eq_of_perm (p : Period) (ps ps' : List Period)
    (hp : ps.Perm ps') (hv : ∀ q ∈ p :: ps, q.Validate = none) :
    p.MergeStep 0 ps' = p.MergeStep 0 ps := by
  cases ps with
  | nil => rw [List.perm_nil.mp hp.symm]
  | cons q0 ps0 =>
    cases ps' with
    | nil => exact absurd (List.perm_nil.mp hp) (by simp)
    | cons r0 ps0' =>
      simp only [Period.MergeStep]
      have hfull : (p :: q0 :: ps0).Perm (p :: r0 :: ps0') := hp.cons p
      cases hs1 : List.insertionSort startLE (p :: q0 :: ps0) with
      | nil =>
        have := (List.perm_insertionSort startLE (p :: q0 :: ps0)).length_eq
        rw [hs1] at this
        simp at this
      | cons a rest =>
        cases hs2 : List.insertionSort startLE (p :: r0 :: ps0') with
        | nil =>
          have := (List.perm_insertionSort startLE (p :: r0 :: ps0')).length_eq
          rw [hs2] at this
          simp at this
        | cons b rest2 =>
          have hpermab : (b :: rest2).Perm (a :: rest) := by
            rw [← hs1, ← hs2]
            exact ((List.perm_insertionSort startLE _).trans hfull.symm).trans
              (List.perm_insertionSort startLE _).symm
          have hsa : List.Sorted startLE (a :: rest) := by
            rw [← hs1]; exact List.sorted_insertionSort startLE _
          have hsb : List.Sorted startLE (b :: rest2) := by
            rw [← hs2]; exact List.sorted_insertionSort startLE _
          have hvb : ∀ x ∈ b :: rest2, x.Validate = none := by
            intro x hx
            refine hv x (hfull.mem_iff.mpr ?_)
            have : x ∈ List.insertionSort startLE (p :: r0 :: ps0') := by
              rw [hs2]; exact hx
            exact (List.perm_insertionSort startLE _).mem_iff.mp this
          exact mergeSweep_head_perm b rest2 a rest hpermab hsb hsa hvb

/-- C5 (amended): for a valid receiver and valid input periods, the result
of `Merge` is invariant under every permutation of the input list — exact
list equality, overlapping inputs included; and when the receiver and
inputs are additionally pairwise non-overlapping under the step-0 test,
every input is preserved as a separate entry, ordered ascending by
`Start`.  (With an invalid period among the inputs, such as the zero
period, permutation invariance fails; see the counterexample.) -/
theorem C5_merge_amended (p : Period) (ps : List Period)
    (hv : ∀ q ∈ p :: ps, q.Validate = none) :
    (∀ ps' : List Period, ps.Perm ps' → p.Merge ps' = p.Merge ps) ∧
      (List.Pairwise (fun a b => a.OverlapsWithStep 0 b = false) (p :: ps) →
        (p.Merge ps).Perm (p :: ps) ∧ List.Sorted startLE (p.Merge ps)) := by
  constructor
  · intro ps' hp'
    unfold Period.Merge
    exact mergeStep_eq_of_perm p ps ps' hp' hv
  · intro hno
    cases ps with
    | nil =>
      exact ⟨List.Perm.refl _, List.sorted_singleton p⟩
    | cons q0 ps0 =>
      have hm := merge_eq_sort p (q0 :: ps0) (by simp) hv hno
      unfold Period.Merge
      rw [hm]
      exact ⟨List.perm_insertionSort startLE _, List.sorted_insertionSort startLE _⟩

/-- C5 witness: the amended theorem applied to the valid receiver
`[1ns, 9ns)` and the valid inputs `[4ns, 20ns)` and `[2ns, 6ns)` — note
these overlap each other and the receiver, exercising the merging path of
the sweep; the non-overlapping part is witnessed through the pairwise
hypothesis discharged on the receiver `[1ns, 3ns)` with inputs
`[10ns, 20ns)` and `[5ns, 7ns)`. -/
theorem C5_merge_amended_witness :
    ((∀ q ∈ [Period.mk 1 9, Period.mk 4 20, Period.mk 2 6], q.Validate = none) ∧
      ∀ ps', List.Perm [Period.mk 4 20, Period.mk 2 6] ps' →
        (Period.mk 1 9).Merge ps' = (Period.mk 1 9).Merge [⟨4, 20⟩, ⟨2, 6⟩]) ∧
      (∀ q ∈ [Period.mk 1 3, Period.mk 10 20, Period.mk 5 7], q.Validate = none) ∧
      List.Pairwise (fun a b => a.OverlapsWithStep 0 b = false)
        [Period.mk 1 3, Period.mk 10 20, Period.mk 5 7] ∧
      ((Period.mk 1 3).Merge [⟨10, 20⟩, ⟨5, 7⟩]).Perm
        [Period.mk 1 3, Period.mk 10 20, Period.mk 5 7] ∧
      List.Sorted startLE ((Period.mk 1 3).Merge [⟨10, 20⟩, ⟨5, 7⟩]) := by
  have h1 := C5_merge_amended ⟨1, 9⟩ [⟨4, 20⟩, ⟨2, 6⟩] (by decide)
  have h2 := C5_merge_amended ⟨1, 3⟩ [⟨10, 20⟩, ⟨5, 7⟩] (by decide)
  have h2' := h2.2 (by decide)
  exact ⟨⟨by decide, h1.1⟩, by decide, by decide, h2'.1, h2'.2⟩
